import Mathlib

/-!
Shallow embedding of the heuristic token estimator of the ai-tokenizer
repository (the Go package `tokenizer`: `Normalize`, `EstimateTokens` and
their helpers), together with proofs of the specified properties.

Text is modelled as a `List Char`, i.e. a sequence of Unicode code points,
matching the Go `for _, r := range s` view of a string. Token counts are
modelled as `Int`, matching the Go `int` results (the counts reached here
are far below any overflow boundary, so plain integers are the exact
semantics).
-/

namespace AITokenizer

/-- Upper bound of the ASCII range, from the source constant
`maxASCII rune = 0x7F`. -/
def maxASCII : Nat := 0x7F

/-- Classification used by the counting loop, from Go `unicode.IsLetter`.
The table is reproduced exactly on the Latin-1 range (`U+0000`–`U+00FF`):
the ASCII letters plus the Latin-1 letter code points `U+00AA`, `U+00B5`,
`U+00BA`, `U+00C0`–`U+00D6`, `U+00D8`–`U+00F6`, `U+00F8`–`U+00FF`.
The counting loop only ever receives output of `Normalize`, which is
proved below to lie in the ASCII range, where this table agrees with the
full Unicode letter property used by Go. -/
def isLetter (c : Char) : Bool :=
  let n := c.toNat
  decide ((0x41 ≤ n ∧ n ≤ 0x5A) ∨ (0x61 ≤ n ∧ n ≤ 0x7A) ∨ n = 0xAA ∨ n = 0xB5 ∨
    n = 0xBA ∨ (0xC0 ≤ n ∧ n ≤ 0xD6) ∨ (0xD8 ≤ n ∧ n ≤ 0xF6) ∨ (0xF8 ≤ n ∧ n ≤ 0xFF))

/-- Classification used by the counting loop, from Go `unicode.IsDigit`
(decimal digit property); on the Latin-1 range exactly `'0'`–`'9'`. -/
def isDigit (c : Char) : Bool :=
  decide (0x30 ≤ c.toNat ∧ c.toNat ≤ 0x39)

/-- Source function `isSpecialChar`: a rune is special when it is neither a
letter nor a digit. -/
def isSpecialChar (inputRune : Char) : Bool :=
  !(isLetter inputRune) && !(isDigit inputRune)

/-- Code-point ranges of Unicode general category Mn (nonspacing mark),
used by the source test `unicode.Is(unicode.Mn, r)`. The list covers the
principal combining-mark blocks. It is a subset of the full Mn table, and
the difference is invisible to `normalizeRune`: every Mn code point lies
above `maxASCII` and outside `specialRuneMap`, so `normalizeRune` erases
it through the folding-table default even when this list misses it. -/
def mnRanges : List (Nat × Nat) :=
  [(0x300, 0x36F), (0x483, 0x489), (0x591, 0x5BD), (0x5BF, 0x5BF),
   (0x5C1, 0x5C2), (0x5C4, 0x5C5), (0x5C7, 0x5C7), (0x610, 0x61A),
   (0x64B, 0x65F), (0x670, 0x670), (0x6D6, 0x6DC), (0x6DF, 0x6E4),
   (0x6E7, 0x6E8), (0x6EA, 0x6ED), (0x711, 0x711), (0x730, 0x74A),
   (0x7A6, 0x7B0), (0x7EB, 0x7F3), (0x816, 0x819), (0x81B, 0x823),
   (0x825, 0x827), (0x829, 0x82D), (0x8E3, 0x902), (0x93A, 0x93A),
   (0x93C, 0x93C), (0x941, 0x948), (0x94D, 0x94D), (0x951, 0x957),
   (0x962, 0x963), (0xE31, 0xE31), (0xE34, 0xE3A), (0xE47, 0xE4E),
   (0x1AB0, 0x1ABD), (0x1DC0, 0x1DF5), (0x20D0, 0x20DC), (0x20E1, 0x20E1),
   (0x20E5, 0x20F0), (0xFE00, 0xFE0F), (0xFE20, 0xFE2F)]

/-- Go `unicode.Is(unicode.Mn, r)`: membership of the code point in the
nonspacing-mark ranges. -/
def isMn (c : Char) : Bool :=
  mnRanges.any (fun p => decide (p.1 ≤ c.toNat ∧ c.toNat ≤ p.2))

/-- Source constant `ligatureSharpS = "ss"`. -/
def ligatureSharpS : List Char := ['s', 's']

/-- Source constant `ligatureAE = "ae"`. -/
def ligatureAE : List Char := ['a', 'e']

/-- Source constant `ligatureOE = "oe"`. -/
def ligatureOE : List Char := ['o', 'e']

/-- Source constant `ligatureO = "o"`. -/
def ligatureO : List Char := ['o']

/-- Source constant `ligatureTH = "th"`. -/
def ligatureTH : List Char := ['t', 'h']

/-- Source constant `ligatureD = "d"`. -/
def ligatureD : List Char := ['d']

/-- The folding table `specialRuneMap` of the source function
`foldSpecialRune`, entry for entry. -/
def specialRuneMap : List (Char × List Char) :=
  [('ß', ligatureSharpS),
   ('Æ', ligatureAE),
   ('æ', ligatureAE),
   ('Œ', ligatureOE),
   ('œ', ligatureOE),
   ('Ø', ligatureO),
   ('ø', ligatureO),
   ('Þ', ligatureTH),
   ('þ', ligatureTH),
   ('Ð', ligatureD),
   ('ð', ligatureD)]

/-- Source function `foldSpecialRune`: look the rune up in the folding
table, returning the replacement on a hit and the empty string otherwise. -/
def foldSpecialRune (inputRune : Char) : List Char :=
  match specialRuneMap.find? (fun p => p.1 == inputRune) with
  | some p => p.2
  | none => []

/-- Source function `normalizeRune`: erase nonspacing marks, pass ASCII
through unchanged, and fold everything else through the table. -/
def normalizeRune (inputRune : Char) : List Char :=
  if isMn inputRune then []
  else if inputRune.toNat ≤ maxASCII then [inputRune]
  else foldSpecialRune inputRune

/-- Canonical (NFD) decomposition table for the library call
`norm.NFD.String`, restricted to the precomposed Latin-1 letters; every
other code point, in particular every ASCII code point and every key of
`specialRuneMap` (none of which decomposes canonically), maps to itself. -/
def nfdTable : List (Char × List Char) :=
  [('À', ['A', '̀']), ('Á', ['A', '́']), ('Â', ['A', '̂']),
   ('Ã', ['A', '̃']), ('Ä', ['A', '̈']), ('Å', ['A', '̊']),
   ('Ç', ['C', '̧']), ('È', ['E', '̀']), ('É', ['E', '́']),
   ('Ê', ['E', '̂']), ('Ë', ['E', '̈']), ('Ì', ['I', '̀']),
   ('Í', ['I', '́']), ('Î', ['I', '̂']), ('Ï', ['I', '̈']),
   ('Ñ', ['N', '̃']), ('Ò', ['O', '̀']), ('Ó', ['O', '́']),
   ('Ô', ['O', '̂']), ('Õ', ['O', '̃']), ('Ö', ['O', '̈']),
   ('Ù', ['U', '̀']), ('Ú', ['U', '́']), ('Û', ['U', '̂']),
   ('Ü', ['U', '̈']), ('Ý', ['Y', '́']), ('à', ['a', '̀']),
   ('á', ['a', '́']), ('â', ['a', '̂']), ('ã', ['a', '̃']),
   ('ä', ['a', '̈']), ('å', ['a', '̊']), ('ç', ['c', '̧']),
   ('è', ['e', '̀']), ('é', ['e', '́']), ('ê', ['e', '̂']),
   ('ë', ['e', '̈']), ('ì', ['i', '̀']), ('í', ['i', '́']),
   ('î', ['i', '̂']), ('ï', ['i', '̈']), ('ñ', ['n', '̃']),
   ('ò', ['o', '̀']), ('ó', ['o', '́']), ('ô', ['o', '̂']),
   ('õ', ['o', '̃']), ('ö', ['o', '̈']), ('ù', ['u', '̀']),
   ('ú', ['u', '́']), ('û', ['u', '̂']), ('ü', ['u', '̈']),
   ('ý', ['y', '́']), ('ÿ', ['y', '̈'])]

/-- Canonical decomposition of one code point (see `nfdTable`). -/
def nfdDecompose (c : Char) : List Char :=
  match nfdTable.find? (fun p => p.1 == c) with
  | some p => p.2
  | none => [c]

/-- The library call `norm.NFD.String`, modelled as per-code-point
canonical decomposition. Canonical reordering is omitted: it permutes only
code points of nonzero combining class, all of which lie above `maxASCII`
and outside `specialRuneMap` and are therefore erased by `normalizeRune`,
so the order among them never affects `processText`'s output. -/
def nfdString (text : List Char) : List Char :=
  text.flatMap nfdDecompose

/-- The source struct `Tokenizer`, holding only the model label. -/
structure Tokenizer where
  model : String

/-- Source constant `DefaultModel = "simple"`. -/
def DefaultModel : String := "simple"

/-- Source constructor `NewTokenizer`. -/
def NewTokenizer : Tokenizer := { model := DefaultModel }

/-- Source accessor `GetModel`. -/
def Tokenizer.GetModel (t : Tokenizer) : String := t.model

/-- Body of the builder loop of `processText`: append the `normalizeRune`
image of the rune to the output so far (the builder write is skipped on an
empty image, which leaves the output unchanged). -/
def Tokenizer.writeRune (_t : Tokenizer) (acc : List Char) (r : Char) : List Char :=
  let out := normalizeRune r
  if out ≠ [] then acc ++ out else acc

/-- Source method `processText`: run the builder loop over the decomposed
text. -/
def Tokenizer.processText (t : Tokenizer) (nfd : List Char) : List Char :=
  nfd.foldl t.writeRune []

/-- Source method `Normalize`: empty input stays empty, otherwise the
NFD-decomposed text is processed rune by rune. -/
def Tokenizer.Normalize (t : Tokenizer) (text : List Char) : List Char :=
  if text = [] then [] else t.processText (nfdString text)

/-- Source constant `CharsPerToken = 2.0`, the character-to-token ratio. -/
def CharsPerToken : ℚ := 2

/-- Source method `addAccumulatedCharTokens`: zero for a nonpositive run,
otherwise `int(math.Ceil(float64(charCount) / CharsPerToken))`. The float
computation is exact for every magnitude reachable here (`charCount` is a
list length, far below `2^53`), so the semantics is the integer ceiling of
`charCount / 2`, written `(charCount + 1) / 2`; the lemma
`addAccumulatedCharTokens_eq_ceil` below proves this form equal to the
exact ceiling. -/
def Tokenizer.addAccumulatedCharTokens (_t : Tokenizer) (charCount : Int) : Int :=
  if charCount ≤ 0 then 0 else (charCount + 1) / 2

/-- Body of the counting loop of `countTokensFromNormalizedText`: on a
special rune, flush the accumulated run and charge one token; on an
ordinary rune, extend the run. State is `(tokenCount, charCount)`. -/
def Tokenizer.countStep (t : Tokenizer) (st : Int × Int) (r : Char) : Int × Int :=
  if isSpecialChar r then (st.1 + t.addAccumulatedCharTokens st.2 + 1, 0)
  else (st.1, st.2 + 1)

/-- Source method `countTokensFromNormalizedText`: run the counting loop
over the normalized text from `(0, 0)` and flush the final run. -/
def Tokenizer.countTokensFromNormalizedText (t : Tokenizer) (normalized : List Char) : Int :=
  let s := normalized.foldl t.countStep (0, 0)
  s.1 + t.addAccumulatedCharTokens s.2

/-- Source method `EstimateTokens`: empty text short-circuits to zero,
otherwise the normalized text is counted. -/
def Tokenizer.EstimateTokens (t : Tokenizer) (text : List Char) : Int :=
  if text = [] then 0 else t.countTokensFromNormalizedText (t.Normalize text)

/-- State-passing form of the pointer-receiver call `t.Normalize(text)`:
the body writes no field of the receiver, so the post-state is the
receiver unchanged. -/
def Tokenizer.NormalizeSt (t : Tokenizer) (text : List Char) : List Char × Tokenizer :=
  (t.Normalize text, t)

/-- State-passing form of the pointer-receiver call `t.EstimateTokens(text)`:
the body writes no field of the receiver, so the post-state is the
receiver unchanged. -/
def Tokenizer.EstimateTokensSt (t : Tokenizer) (text : List Char) : Int × Tokenizer :=
  (t.EstimateTokens text, t)

/-- State-passing form of the pointer-receiver call `t.GetModel()`: the
body writes no field of the receiver, so the post-state is the receiver
unchanged. -/
def Tokenizer.GetModelSt (t : Tokenizer) : String × Tokenizer :=
  (t.GetModel, t)

/-- Reference count written from the specification's words, for comparison
with the implementation: scanning left to right, each maximal run of `k`
consecutive letter-or-digit code points contributes `⌈k / 2⌉` tokens and
each special code point contributes one token. -/
def specRunFlushCount : List Char → Int
  | [] => 0
  | c :: cs =>
    if isSpecialChar c then 1 + specRunFlushCount cs
    else
      ⌈((1 + ((cs.takeWhile (fun x => !(isSpecialChar x))).length : Int) : Int) : ℚ) / 2⌉
        + specRunFlushCount (cs.dropWhile (fun x => !(isSpecialChar x)))
termination_by l => l.length
decreasing_by
  · simp only [List.length_cons]
    omega
  · simp only [List.length_cons]
    have h := List.Sublist.length_le
      (List.dropWhile_sublist (l := cs) (fun x => !(isSpecialChar x)))
    omega

example : NewTokenizer.EstimateTokens "hello world".data = 7 := by decide
example : NewTokenizer.Normalize ['Æ'] = ['a', 'e'] := by decide
example : NewTokenizer.Normalize ['e', '́'] = ['e'] := by decide
example : NewTokenizer.Normalize ['世', '界'] = [] := by decide
example : NewTokenizer.EstimateTokens ['😀', '👍', '🎉'] = 0 := by decide
example : NewTokenizer.Normalize "café".data = "cafe".data := by decide

/-! ## Arithmetic of the run flush -/

/-- The integer ceiling of `k / 2` equals the euclidean quotient `(k + 1) / 2`. -/
theorem ceil_half_eq (k : Int) : ⌈(k : ℚ) / 2⌉ = (k + 1) / 2 := by
  rw [Int.ceil_eq_iff]
  set m : Int := (k + 1) / 2 with hm
  constructor
  · rw [lt_div_iff₀ (by norm_num : (0 : ℚ) < 2)]
    have h : ((m - 1) * 2 : Int) < k := by omega
    exact_mod_cast h
  · rw [div_le_iff₀ (by norm_num : (0 : ℚ) < 2)]
    have h : (k : Int) ≤ m * 2 := by omega
    exact_mod_cast h

/-- The integer form `(charCount + 1) / 2` used in the embedding of
`addAccumulatedCharTokens` equals the exact ceiling computed by the source
through `math.Ceil(float64(charCount) / CharsPerToken)`. -/
theorem addAccumulatedCharTokens_eq_ceil (t : Tokenizer) (k : Int) (hk : 0 < k) :
    t.addAccumulatedCharTokens k = ⌈(k : ℚ) / CharsPerToken⌉ := by
  rw [Tokenizer.addAccumulatedCharTokens, if_neg (by omega), CharsPerToken, ceil_half_eq]

/-- Flushing a run never produces a negative contribution. -/
theorem addAccumulatedCharTokens_nonneg (t : Tokenizer) (k : Int) :
    0 ≤ t.addAccumulatedCharTokens k := by
  rw [Tokenizer.addAccumulatedCharTokens]
  split
  · omega
  · omega

/-- Flushing an empty run contributes nothing. -/
theorem addAccumulatedCharTokens_zero (t : Tokenizer) :
    t.addAccumulatedCharTokens 0 = 0 := rfl

/-! ## Normalization lemmas -/

/-- The builder loop of `processText` concatenates the per-rune images in
order. -/
theorem writeRune_eq (t : Tokenizer) (acc : List Char) (r : Char) :
    t.writeRune acc r = acc ++ normalizeRune r := by
  by_cases h : normalizeRune r = [] <;> simp [Tokenizer.writeRune, h]

/-- The builder loop of `processText` concatenates the per-rune images in
order. -/
theorem processText_eq_flatMap (t : Tokenizer) (nfd : List Char) :
    t.processText nfd = nfd.flatMap normalizeRune := by
  have aux : ∀ (l : List Char) (acc : List Char),
      l.foldl t.writeRune acc = acc ++ l.flatMap normalizeRune := by
    intro l
    induction l with
    | nil => intro acc; simp
    | cons r l ih =>
      intro acc
      rw [List.foldl_cons, writeRune_eq, ih, List.flatMap_cons, List.append_assoc]
  exact aux nfd []

/-- Every code point produced by the folding table is ASCII. -/
theorem mem_foldSpecialRune_ascii (r c : Char) (hc : c ∈ foldSpecialRune r) :
    c.toNat ≤ maxASCII := by
  have htab : ∀ p ∈ specialRuneMap, ∀ x ∈ p.2, x.toNat ≤ maxASCII := by decide
  rw [foldSpecialRune] at hc
  split at hc
  · next p hp => exact htab p (List.mem_of_find?_eq_some hp) c hc
  · simp at hc

/-- Every code point produced by `normalizeRune` is ASCII. -/
theorem mem_normalizeRune_ascii (r c : Char) (hc : c ∈ normalizeRune r) :
    c.toNat ≤ maxASCII := by
  rw [normalizeRune] at hc
  split at hc
  · simp at hc
  · split at hc
    · next h =>
      rw [List.mem_singleton] at hc
      subst hc; exact h
    · exact mem_foldSpecialRune_ascii r c hc

/-- Every code point of `Normalize` output is ASCII. -/
theorem mem_normalize_ascii (t : Tokenizer) (text : List Char) (c : Char)
    (hc : c ∈ t.Normalize text) : c.toNat ≤ maxASCII := by
  rw [Tokenizer.Normalize] at hc
  split at hc
  · simp at hc
  · rw [processText_eq_flatMap, List.mem_flatMap] at hc
    obtain ⟨r, _, hr⟩ := hc
    exact mem_normalizeRune_ascii r c hr

/-- No ASCII code point is a nonspacing mark. -/
theorem isMn_ascii_false (c : Char) (hc : c.toNat ≤ maxASCII) : isMn c = false := by
  have hall : ∀ p ∈ mnRanges, maxASCII < p.1 := by decide
  rw [isMn, List.any_eq_false]
  intro p hp
  have := hall p hp
  simp only [decide_eq_true_eq, not_and]
  omega

/-- ASCII code points have no canonical decomposition. -/
theorem nfdDecompose_ascii (c : Char) (hc : c.toNat ≤ maxASCII) :
    nfdDecompose c = [c] := by
  have hkeys : ∀ p ∈ nfdTable, maxASCII < p.1.toNat := by decide
  rw [nfdDecompose]
  split
  · next p hp =>
    have hmem := List.mem_of_find?_eq_some hp
    have heq : p.1 = c := by
      have := List.find?_some hp
      simpa using this
    have := hkeys p hmem
    rw [heq] at this
    omega
  · rfl

/-- An ASCII code point passes through `normalizeRune` unchanged. -/
theorem normalizeRune_ascii (c : Char) (hc : c.toNat ≤ maxASCII) :
    normalizeRune c = [c] := by
  rw [normalizeRune, isMn_ascii_false c hc]
  simp [hc]

/-- A `flatMap` whose function fixes every element of the list is the
identity on that list. -/
theorem flatMap_id_of (l : List Char) (f : Char → List Char)
    (hf : ∀ c ∈ l, f c = [c]) : l.flatMap f = l := by
  induction l with
  | nil => simp
  | cons c cs ih =>
    rw [List.flatMap_cons, hf c (List.mem_cons_self c cs),
      ih (fun x hx => hf x (List.mem_cons_of_mem c hx))]
    rfl

/-- ASCII-only text is a fixed point of `Normalize`. -/
theorem normalize_fixed_of_ascii (t : Tokenizer) (text : List Char)
    (h : ∀ c ∈ text, c.toNat ≤ maxASCII) : t.Normalize text = text := by
  rw [Tokenizer.Normalize]
  split
  · next he => exact he.symm
  · rw [processText_eq_flatMap, nfdString,
      flatMap_id_of text nfdDecompose (fun c hc => nfdDecompose_ascii c (h c hc))]
    exact flatMap_id_of text normalizeRune (fun c hc => normalizeRune_ascii c (h c hc))

/-- Normalization is idempotent. -/
theorem normalize_idem (t : Tokenizer) (x : List Char) :
    t.Normalize (t.Normalize x) = t.Normalize x :=
  normalize_fixed_of_ascii t (t.Normalize x) (fun c hc => mem_normalize_ascii t x c hc)

/-! ## Counting lemmas -/

/-- Unfolded form of `countTokensFromNormalizedText`. -/
theorem countTokens_def (t : Tokenizer) (l : List Char) :
    t.countTokensFromNormalizedText l =
      (l.foldl t.countStep (0, 0)).1
        + t.addAccumulatedCharTokens (l.foldl t.countStep (0, 0)).2 := rfl

/-- The token total accumulated by the counting loop is additive in the
initial total, and the final run counter does not depend on it. -/
theorem countFoldl_shift (t : Tokenizer) (l : List Char) (a c : Int) :
    l.foldl t.countStep (a, c) =
      (a + (l.foldl t.countStep (0, c)).1, (l.foldl t.countStep (0, c)).2) := by
  induction l generalizing a c with
  | nil => simp
  | cons r l ih =>
    rw [List.foldl_cons, List.foldl_cons, Tokenizer.countStep, Tokenizer.countStep]
    by_cases hr : isSpecialChar r
    · rw [if_pos hr, if_pos hr,
        ih (a + t.addAccumulatedCharTokens c + 1) 0,
        ih (0 + t.addAccumulatedCharTokens c + 1) 0]
      rw [Prod.mk.injEq]
      exact ⟨by ring, rfl⟩
    · rw [if_neg hr, if_neg hr, ih a (c + 1), ih 0 (c + 1)]

/-- Counting empty text yields zero. -/
theorem countTokens_nil (t : Tokenizer) : t.countTokensFromNormalizedText [] = 0 := by
  rw [countTokens_def]
  simp [addAccumulatedCharTokens_zero]

/-- A leading special character costs exactly one token on top of the rest. -/
theorem countTokens_cons_special (t : Tokenizer) (c : Char) (cs : List Char)
    (hc : isSpecialChar c = true) :
    t.countTokensFromNormalizedText (c :: cs) = 1 + t.countTokensFromNormalizedText cs := by
  rw [countTokens_def, countTokens_def, List.foldl_cons, Tokenizer.countStep, if_pos hc,
    addAccumulatedCharTokens_zero, countFoldl_shift]
  dsimp only
  ring

/-- Running the counting loop from run counter `k` charges one flush of
`k` plus the length of the leading ordinary run, and then counts the rest
from scratch. -/
theorem countTokens_run (t : Tokenizer) :
    ∀ (cs : List Char) (k : Int),
      (cs.foldl t.countStep (0, k)).1
          + t.addAccumulatedCharTokens (cs.foldl t.countStep (0, k)).2
        = t.addAccumulatedCharTokens
            (k + ((cs.takeWhile (fun x => !(isSpecialChar x))).length : Int))
          + t.countTokensFromNormalizedText (cs.dropWhile (fun x => !(isSpecialChar x))) := by
  intro cs
  induction cs with
  | nil =>
    intro k
    simp [countTokens_nil]
  | cons r cs ih =>
    intro k
    rw [List.takeWhile_cons, List.dropWhile_cons]
    by_cases hr : isSpecialChar r
    · simp only [hr, Bool.not_true, Bool.false_eq_true, if_false]
      rw [List.foldl_cons, Tokenizer.countStep, if_pos hr, countFoldl_shift,
        countTokens_cons_special t r cs hr, countTokens_def]
      simp only [List.length_nil, Nat.cast_zero, add_zero]
      ring
    · have hq : (!(isSpecialChar r)) = true := by simp [hr]
      simp only [hq, if_true]
      rw [List.foldl_cons, Tokenizer.countStep, if_neg hr, ih (k + 1), List.length_cons]
      have harg : k + 1 + ((cs.takeWhile (fun x => !(isSpecialChar x))).length : Int)
          = k + ((((cs.takeWhile (fun x => !(isSpecialChar x))).length + 1 : Nat)) : Int) := by
        push_cast
        ring
      rw [harg]

/-- The implementation's counting loop computes exactly the run-flush
count of the specification. -/
theorem countTokens_eq_spec (t : Tokenizer) (l : List Char) :
    t.countTokensFromNormalizedText l = specRunFlushCount l := by
  have aux : ∀ (n : Nat), ∀ (l : List Char), l.length ≤ n →
      t.countTokensFromNormalizedText l = specRunFlushCount l := by
    intro n
    induction n with
    | zero =>
      intro l hl
      have hnil : l = [] := List.length_eq_zero.mp (Nat.le_zero.mp hl)
      subst hnil
      rw [countTokens_nil]
      simp only [specRunFlushCount]
    | succ n ihn =>
      intro l hl
      match l with
      | [] =>
        rw [countTokens_nil]
        simp only [specRunFlushCount]
      | c :: cs =>
        rw [List.length_cons] at hl
        have hl' : cs.length ≤ n := by omega
        by_cases hc : isSpecialChar c
        · rw [countTokens_cons_special t c cs hc, ihn cs hl']
          simp only [specRunFlushCount]
          rw [if_pos hc]
        · rw [countTokens_def, List.foldl_cons, Tokenizer.countStep, if_neg hc]
          dsimp only
          rw [show ((0 : Int), (0 : Int) + 1) = ((0 : Int), (1 : Int)) by norm_num]
          rw [countTokens_run t cs 1,
            addAccumulatedCharTokens_eq_ceil t _ (by positivity),
            ihn (cs.dropWhile (fun x => !(isSpecialChar x)))
              (le_trans (List.Sublist.length_le (List.dropWhile_sublist _)) hl')]
          simp only [specRunFlushCount]
          rw [if_neg hc]
          simp only [CharsPerToken]
  exact aux l.length l le_rfl

/-- The specification count of all-ordinary text is the rounded-up half
length. -/
theorem spec_all_ordinary (l : List Char) (h : ∀ c ∈ l, isSpecialChar c = false) :
    specRunFlushCount l = ⌈((l.length : Int) : ℚ) / 2⌉ := by
  match l with
  | [] =>
    simp only [specRunFlushCount, List.length_nil]
    norm_num
  | c :: cs =>
    have hc : isSpecialChar c = false := h c (List.mem_cons_self c cs)
    have htake : cs.takeWhile (fun x => !(isSpecialChar x)) = cs :=
      List.takeWhile_eq_self_iff.mpr
        (fun x hx => by simp [h x (List.mem_cons_of_mem c hx)])
    have hdrop : cs.dropWhile (fun x => !(isSpecialChar x)) = [] :=
      List.dropWhile_eq_nil_iff.mpr
        (fun x hx => by simp [h x (List.mem_cons_of_mem c hx)])
    simp only [specRunFlushCount]
    rw [if_neg (by simp [hc]), htake, hdrop]
    simp only [specRunFlushCount]
    rw [add_zero, List.length_cons]
    congr 1
    push_cast
    ring

/-- The specification count of all-special text is its length. -/
theorem spec_all_special (l : List Char) (h : ∀ c ∈ l, isSpecialChar c = true) :
    specRunFlushCount l = l.length := by
  induction l with
  | nil => simp [specRunFlushCount]
  | cons c cs ih =>
    simp only [specRunFlushCount]
    rw [if_pos (h c (List.mem_cons_self c cs)),
      ih (fun x hx => h x (List.mem_cons_of_mem c hx)), List.length_cons]
    push_cast
    ring

/-- The counting loop never yields a negative total. -/
theorem countTokens_nonneg (t : Tokenizer) (l : List Char) :
    0 ≤ t.countTokensFromNormalizedText l := by
  have inv : ∀ (m : List Char) (st : Int × Int), 0 ≤ st.1 → 0 ≤ st.2 →
      0 ≤ (m.foldl t.countStep st).1 ∧ 0 ≤ (m.foldl t.countStep st).2 := by
    intro m
    induction m with
    | nil => intro st h1 h2; exact ⟨h1, h2⟩
    | cons r cs ih =>
      intro st h1 h2
      rw [List.foldl_cons, Tokenizer.countStep]
      by_cases hr : isSpecialChar r
      · rw [if_pos hr]
        refine ih _ ?_ ?_
        · have h3 := addAccumulatedCharTokens_nonneg t st.2
          dsimp only
          linarith
        · exact le_refl 0
      · rw [if_neg hr]
        refine ih _ h1 ?_
        dsimp only
        linarith
  rw [countTokens_def]
  obtain ⟨h1, h2⟩ := inv l (0, 0) le_rfl le_rfl
  have h3 := addAccumulatedCharTokens_nonneg t (l.foldl t.countStep (0, 0)).2
  linarith

/-! ## Claim theorems -/

/-- C1: for every input, `EstimateTokens` equals the reference run-flush
count over the normalized text: each maximal run of `k` letter-or-digit
code points costs `⌈k / 2⌉` tokens and each special code point costs one
token; in particular ASCII text of `k` letters/digits costs `⌈k / 2⌉`
tokens and ASCII text of `k` special characters costs `k` tokens. -/
theorem estimateTokens_matches_runFlushSpec :
    (∀ (t : Tokenizer) (text : List Char),
      t.EstimateTokens text = specRunFlushCount (t.Normalize text))
    ∧ (∀ (t : Tokenizer) (text : List Char),
        (∀ c ∈ text, c.toNat ≤ maxASCII ∧ isSpecialChar c = false) →
        t.EstimateTokens text = ⌈((text.length : Int) : ℚ) / 2⌉)
    ∧ (∀ (t : Tokenizer) (text : List Char),
        (∀ c ∈ text, c.toNat ≤ maxASCII ∧ isSpecialChar c = true) →
        t.EstimateTokens text = text.length) := by
  refine ⟨?_, ?_, ?_⟩
  · intro t text
    rw [Tokenizer.EstimateTokens]
    split
    · next he =>
      subst he
      simp [Tokenizer.Normalize, specRunFlushCount]
    · exact countTokens_eq_spec t _
  · intro t text h
    by_cases htext : text = []
    · subst htext
      show (0 : Int) = _
      norm_num
    · rw [Tokenizer.EstimateTokens, if_neg htext,
        normalize_fixed_of_ascii t text (fun c hc => (h c hc).1),
        countTokens_eq_spec t text,
        spec_all_ordinary text (fun c hc => (h c hc).2)]
  · intro t text h
    by_cases htext : text = []
    · subst htext
      rfl
    · rw [Tokenizer.EstimateTokens, if_neg htext,
        normalize_fixed_of_ascii t text (fun c hc => (h c hc).1),
        countTokens_eq_spec t text,
        spec_all_special text (fun c hc => (h c hc).2)]

/-- Witness for the run-flush claim at concrete inputs: three letters cost
two tokens, three specials cost three. -/
theorem estimateTokens_matches_runFlushSpec_witness :
    NewTokenizer.EstimateTokens "abc".data = ⌈((("abc".data.length : Nat) : Int) : ℚ) / 2⌉
      ∧ NewTokenizer.EstimateTokens "! .".data = "! .".data.length := by
  constructor
  · exact estimateTokens_matches_runFlushSpec.2.1 NewTokenizer "abc".data (by decide)
  · exact estimateTokens_matches_runFlushSpec.2.2 NewTokenizer "! .".data (by decide)

/-- C2: every code point of `Normalize` output lies in the ASCII range. -/
theorem normalize_output_ascii (t : Tokenizer) (text : List Char) :
    ∀ c ∈ t.Normalize text, c.toNat ≤ maxASCII :=
  fun c hc => mem_normalize_ascii t text c hc

/-- Witness for the ASCII-range claim at a concrete input. -/
theorem normalize_output_ascii_witness :
    'e' ∈ NewTokenizer.Normalize "é".data ∧ ('e').toNat ≤ maxASCII :=
  ⟨by decide, normalize_output_ascii NewTokenizer "é".data 'e' (by decide)⟩

/-- C3 counterexample: the folding table maps the uppercase source `Æ` to
the lowercase replacement `"ae"`, not to `"AE"` as the claim states. -/
theorem normalize_AE_case_counterexample :
    ¬ (NewTokenizer.Normalize ['Æ'] = ['A', 'E']) := by decide

/-- C3 amended: `Normalize` maps every folding-table code point, uppercase
or lowercase, to the lowercase replacement listed in the table. -/
theorem foldingTable_maps_to_lowercase :
    NewTokenizer.Normalize ['ß'] = ['s', 's']
      ∧ NewTokenizer.Normalize ['Æ'] = ['a', 'e']
      ∧ NewTokenizer.Normalize ['æ'] = ['a', 'e']
      ∧ NewTokenizer.Normalize ['Œ'] = ['o', 'e']
      ∧ NewTokenizer.Normalize ['œ'] = ['o', 'e']
      ∧ NewTokenizer.Normalize ['Ø'] = ['o']
      ∧ NewTokenizer.Normalize ['ø'] = ['o']
      ∧ NewTokenizer.Normalize ['Þ'] = ['t', 'h']
      ∧ NewTokenizer.Normalize ['þ'] = ['t', 'h']
      ∧ NewTokenizer.Normalize ['Ð'] = ['d']
      ∧ NewTokenizer.Normalize ['ð'] = ['d'] := by decide

/-- C4 counterexample: `EstimateTokens "hello world"` is not 6. -/
theorem estimate_hello_world_counterexample :
    ¬ (NewTokenizer.EstimateTokens "hello world".data = 6) := by decide

/-- C4 amended: `EstimateTokens "hello world"` equals 7, the value of the
run-flush rule (`⌈5/2⌉ + 1 + ⌈5/2⌉`). -/
theorem estimate_hello_world_eq_seven :
    NewTokenizer.EstimateTokens "hello world".data = 7 := by decide

/-- C5: `Normalize` is idempotent, and ASCII-only text is a fixed point. -/
theorem normalize_idempotent :
    (∀ (t : Tokenizer) (x : List Char), t.Normalize (t.Normalize x) = t.Normalize x)
    ∧ (∀ (t : Tokenizer) (x : List Char), (∀ c ∈ x, c.toNat ≤ maxASCII) →
        t.Normalize x = x) :=
  ⟨normalize_idem, normalize_fixed_of_ascii⟩

/-- Witness for the fixed-point half of the idempotence claim. -/
theorem normalize_idempotent_witness :
    NewTokenizer.Normalize "Hi!".data = "Hi!".data :=
  normalize_idempotent.2 NewTokenizer "Hi!".data (by decide)

/-- C6: nonspacing marks contribute nothing to the output, non-ASCII code
points without a folding-table entry are dropped, and consequently
`e` + U+0301 normalizes to `e`, CJK text normalizes to empty, and emoji
text estimates to zero. -/
theorem dropped_codepoints_contribute_nothing :
    (∀ c : Char, isMn c = true → normalizeRune c = [])
    ∧ (∀ c : Char, maxASCII < c.toNat →
        specialRuneMap.find? (fun p => p.1 == c) = none → normalizeRune c = [])
    ∧ NewTokenizer.Normalize ['e', '́'] = ['e']
    ∧ NewTokenizer.Normalize "世界".data = []
    ∧ NewTokenizer.EstimateTokens "😀👍🎉".data = 0 := by
  refine ⟨?_, ?_, by decide, by decide, by decide⟩
  · intro c hc
    rw [normalizeRune, if_pos hc]
  · intro c h1 h2
    by_cases hm : isMn c
    · rw [normalizeRune, if_pos hm]
    · rw [normalizeRune, if_neg hm, if_neg (by omega)]
      unfold foldSpecialRune
      rw [h2]

/-- Witness for the dropped-code-point claim at concrete inputs: a
combining acute accent and a euro sign. -/
theorem dropped_codepoints_witness :
    (isMn '́' = true ∧ normalizeRune '́' = [])
      ∧ (maxASCII < ('€').toNat
          ∧ specialRuneMap.find? (fun p => p.1 == '€') = none
          ∧ normalizeRune '€' = []) :=
  ⟨⟨by decide, dropped_codepoints_contribute_nothing.1 '́' (by decide)⟩,
    ⟨by decide, by decide,
      dropped_codepoints_contribute_nothing.2.1 '€' (by decide) (by decide)⟩⟩

/-- C7: `EstimateTokens` is total by construction and never returns a
negative count. -/
theorem estimateTokens_nonneg (t : Tokenizer) (text : List Char) :
    0 ≤ t.EstimateTokens text := by
  rw [Tokenizer.EstimateTokens]
  split
  · exact le_refl 0
  · exact countTokens_nonneg t _

/-- C8: empty input yields zero tokens and empty normalized text. -/
theorem empty_input_empty_output (t : Tokenizer) :
    t.EstimateTokens [] = 0 ∧ t.Normalize [] = [] :=
  ⟨rfl, rfl⟩

/-- C9: no operation mutates the estimator: the receiver returned by each
state-passing call is the original value, so `GetModel` answers the same
before and after every operation. -/
theorem operations_preserve_model (t : Tokenizer) (text s : List Char) :
    (t.EstimateTokensSt text).2 = t ∧ (t.NormalizeSt s).2 = t ∧ t.GetModelSt.2 = t
      ∧ ((t.EstimateTokensSt text).2).GetModel = t.GetModel
      ∧ ((t.NormalizeSt s).2).GetModel = t.GetModel
      ∧ (t.GetModelSt.2).GetModel = t.GetModel :=
  ⟨rfl, rfl, rfl, rfl, rfl, rfl⟩

/-- C10: estimation is invariant under normalization. -/
theorem estimate_normalize_invariant (t : Tokenizer) (x : List Char) :
    t.EstimateTokens (t.Normalize x) = t.EstimateTokens x := by
  by_cases hx : x = []
  · subst hx
    rfl
  · rw [Tokenizer.EstimateTokens, Tokenizer.EstimateTokens, if_neg hx]
    by_cases hn : t.Normalize x = []
    · rw [if_pos hn, hn, countTokens_nil]
    · rw [if_neg hn, normalize_idem]

end AITokenizer

